import Mathlib

/-!
Verification of the Huffman coding core of huffman_visualizer.py.

The embedded code consists of the Node class, build_huffman_tree and
assign_codes from the source file, together with the encoding expression
and the compression metric of HuffmanApp.run_huffman_steps, and a faithful
model of the CPython heapq functions that build_huffman_tree calls
(heapify, heappush, heappop and their sift helpers). Loops are rendered
as fuel-based structural recursions; the fuel supplied at each call site
is large enough that the fuel-exhausted branch is never reached, which is
proved where needed.
-/

/-- Huffman tree nodes, from the Node class of huffman_visualizer.py
lines 11 to 19. The constructor null stands for the Python value None,
which the source uses both for absent children and for an absent root. -/
inductive Node : Type where
  | null : Node
  | mk (char : Option Char) (freq : Int) (left right : Node) : Node
deriving DecidableEq

/-- Field char of a node; none on the null node. -/
def Node.char : Node → Option Char
  | .null => none
  | .mk c _ _ _ => c

/-- Field freq of a node; 0 on the null node, which the source never reads. -/
def Node.freq : Node → Int
  | .null => 0
  | .mk _ f _ _ => f

/-- Field left of a node. -/
def Node.left : Node → Node
  | .null => .null
  | .mk _ _ l _ => l

/-- Field right of a node. -/
def Node.right : Node → Node
  | .null => .null
  | .mk _ _ _ r => r

/-- The comparison method of the Node class, lines 17 to 19: nodes are
ordered by freq. This is the only comparison heapq performs. -/
def Node.lt (a b : Node) : Prop := a.freq < b.freq

instance (a b : Node) : Decidable (Node.lt a b) :=
  inferInstanceAs (Decidable (a.freq < b.freq))

/-- The while loop of the private CPython helper that restores the heap
shape upward from position pos (the helper named with a leading underscore
and the word siftdown in heapq.py). The value newitem conceptually sits in
the hole at pos; parents larger than it are moved down until the start
position is reached or a parent not larger than newitem is found, then
newitem is stored. Fuel bounds the iteration count; pos iterations always
suffice because pos strictly decreases. -/
def siftdownLoop (newitem : Node) (startpos : Nat) : Nat → List Node → Nat → List Node
  | 0, heap, pos => heap.set pos newitem
  | fuel + 1, heap, pos =>
    if startpos < pos then
      if Node.lt newitem (heap.getD ((pos - 1) / 2) Node.null) then
        siftdownLoop newitem startpos fuel
          (heap.set pos (heap.getD ((pos - 1) / 2) Node.null)) ((pos - 1) / 2)
      else
        heap.set pos newitem
    else
      heap.set pos newitem

/-- The CPython heapq upward-restore helper: reads the item at pos and runs
the loop. Supplying fuel pos matches the Python while loop exactly. -/
def siftdown (heap : List Node) (startpos pos : Nat) : List Node :=
  siftdownLoop (heap.getD pos Node.null) startpos pos heap pos

/-- Selection of the smaller child of pos inside the downward-walk loop:
the right child at 2 pos + 2 whenever it exists and the left child is not
strictly smaller, otherwise the left child at 2 pos + 1. -/
def childSel (endpos : Nat) (heap : List Node) (pos : Nat) : Nat :=
  if 2 * pos + 2 < endpos ∧
      ¬ Node.lt (heap.getD (2 * pos + 1) Node.null) (heap.getD (2 * pos + 2) Node.null) then
    2 * pos + 2
  else
    2 * pos + 1

/-- The while loop of the CPython helper that moves the hole at pos down to
a leaf, always following the smaller child (the helper named with a leading
underscore and the word siftup in heapq.py). Returns the final heap and the
final hole position. Fuel endpos always suffices because pos strictly
increases and stays below endpos. -/
def siftupLoop : Nat → Nat → List Node → Nat → List Node × Nat
  | 0, _, heap, pos => (heap, pos)
  | fuel + 1, endpos, heap, pos =>
    if 2 * pos + 1 < endpos then
      siftupLoop fuel endpos
        (heap.set pos (heap.getD (childSel endpos heap pos) Node.null))
        (childSel endpos heap pos)
    else
      (heap, pos)

/-- The CPython heapq downward-then-upward restore helper: the hole at pos
is moved down to a leaf, the saved item is stored there, and the upward
helper bubbles it back up but not above the start position. -/
def siftup (heap : List Node) (pos : Nat) : List Node :=
  let endpos := heap.length
  let newitem := heap.getD pos Node.null
  let r := siftupLoop endpos endpos heap pos
  siftdown (r.1.set r.2 newitem) pos r.2

/-- CPython heapq.heappush: append the item and restore the heap upward. -/
def heappush (heap : List Node) (item : Node) : List Node :=
  siftdown (heap ++ [item]) 0 heap.length

/-- CPython heapq.heappop: pop the last element; if the heap is still
nonempty, return the root, move the last element into the root position and
restore downward. Raising IndexError on an empty heap becomes none. -/
def heappop (heap : List Node) : Option (Node × List Node) :=
  if heap.length = 0 then none
  else
    let lastelt := heap.getLastD Node.null
    let rest := heap.dropLast
    if rest.length = 0 then some (lastelt, [])
    else some (rest.getD 0 Node.null, siftup (rest.set 0 lastelt) 0)

/-- The loop of CPython heapq.heapify: sift at indices from the argument
minus one down to zero. -/
def heapifyLoop : Nat → List Node → List Node
  | 0, heap => heap
  | m + 1, heap => heapifyLoop m (siftup heap m)

/-- CPython heapq.heapify: bottom-up sift over the first half of the list. -/
def heapify (heap : List Node) : List Node :=
  heapifyLoop (heap.length / 2) heap

/-- The list comprehension of build_huffman_tree line 23: one leaf node per
entry of the frequency table, in table order. -/
def initLeaves (freq_map : List (Char × Int)) : List Node :=
  freq_map.map fun p => Node.mk (some p.1) p.2 Node.null Node.null

/-- The while loop of build_huffman_tree lines 27 to 34: while more than
one node remains, pop two nodes, build their parent, push it back and
record the step. Fuel equal to the initial heap length always suffices
because each iteration shrinks the heap by one. The branches for a failing
heappop are unreachable because the loop guard keeps the heap length above
one. -/
def buildLoop : Nat → List Node × List (Node × Node × Int) → List Node × List (Node × Node × Int)
  | 0, s => s
  | fuel + 1, (heap, steps) =>
    if 1 < heap.length then
      match heappop heap with
      | some (left, h1) =>
        match heappop h1 with
        | some (right, h2) =>
          buildLoop fuel
            (heappush h2 (Node.mk none (left.freq + right.freq) left right),
             steps ++ [(left, right, left.freq + right.freq)])
        | none => (heap, steps)
      | none => (heap, steps)
    else
      (heap, steps)

/-- build_huffman_tree, lines 22 to 36 of the source: heapify the leaves,
run the merge loop, and return the remaining root (None when the table is
empty, rendered as Node.null) together with the merge trace. A Python dict
is rendered as its association list in insertion order; its keys are
distinct. -/
def build_huffman_tree (freq_map : List (Char × Int)) : Node × List (Node × Node × Int) :=
  let heap := heapify (initLeaves freq_map)
  let r := buildLoop heap.length (heap, [])
  (r.1.headD Node.null, r.2)

/-- Assignment into a Python dict: replace the value when the key is
present, otherwise append the binding at the end. -/
def insertDict (m : List (Char × List Char)) (k : Char) (v : List Char) : List (Char × List Char) :=
  if m.any fun p => p.1 == k then
    m.map fun p => if p.1 == k then (k, v) else p
  else
    m ++ [(k, v)]

/-- assign_codes, lines 38 to 46 of the source: record the running path at
every node carrying a character, then recurse left with bit 0 appended and
right with bit 1 appended. Code strings are rendered as lists of the
characters 0 and 1, and the mutable dict as a threaded association list.
The call sites of the source pass the empty path and the empty dict. -/
def assign_codes : Node → List Char → List (Char × List Char) → List (Char × List Char)
  | Node.null, _, code_map => code_map
  | Node.mk c _ l r, pre, code_map =>
    let m1 :=
      match c with
      | some ch => insertDict code_map ch pre
      | none => code_map
    let m2 := assign_codes l (pre ++ ['0']) m1
    assign_codes r (pre ++ ['1']) m2

/-- Lookup in a Python dict rendered as an association list. -/
def dictGet (m : List (Char × List Char)) (k : Char) : Option (List Char) :=
  (m.find? fun p => p.1 == k).map fun p => p.2

/-- The key list of a dict rendered as an association list. -/
def dictKeys (m : List (Char × List Char)) : List Char :=
  m.map fun p => p.1

/-- The encoding expression of HuffmanApp.run_huffman_steps line 208: the
concatenation of the codes of exactly those message symbols that are keys
of the code table, in message order; symbols absent from the table are
skipped. -/
def encode (msg : List Char) (codes : List (Char × List Char)) : List Char :=
  (msg.filterMap fun ch => dictGet codes ch).flatten

/-- original_bits of run_huffman_steps line 209: eight bits per character
of the raw input text. -/
def original_bits (text : List Char) : Nat := text.length * 8

/-- compression_ratio of run_huffman_steps line 212, as an exact rational:
the percentage saved when the original size is positive, else 0. -/
def compression_ratio_pct (originalBits compressedBits : Nat) : ℚ :=
  if 0 < originalBits then
    ((originalBits : ℚ) - (compressedBits : ℚ)) / (originalBits : ℚ) * 100
  else 0

/-- The characters carried by the leaves of a tree, in left-to-right
order. Internal nodes built by the source carry no character. -/
def leafChars : Node → List Char
  | .null => []
  | .mk c _ l r =>
    (match c with
      | some ch => [ch]
      | none => []) ++ leafChars l ++ leafChars r

/-- The bindings assign_codes produces on a tree whose leaf characters are
distinct, written directly as a list: each character paired with the path
from the root to it. -/
def codesList : Node → List Char → List (Char × List Char)
  | .null, _ => []
  | .mk c _ l r, pre =>
    (match c with
      | some ch => [(ch, pre)]
      | none => []) ++ codesList l (pre ++ ['0']) ++ codesList r (pre ++ ['1'])

/-- One bit string starts another: there is a suffix extending the first
to the second. -/
def ListPre (a b : List Char) : Prop := ∃ t, a ++ t = b

/-- Key of the heap slot at index i, with 0 out of range. -/
def kOf (l : List Node) (i : Nat) : Int := (l.getD i Node.null).freq

/-- The binary-heap shape invariant of CPython heapq: every slot is at
most its two children, equivalently at least its parent. -/
def isHeap (l : List Node) : Prop :=
  ∀ c, 0 < c → c < l.length → kOf l ((c - 1) / 2) ≤ kOf l c

/-- heapFrom l i: every heap edge whose parent index is at least i holds.
heapFrom l 0 is the full heap invariant; it is vacuous at the midpoint of
the list, which is where heapify starts. -/
def heapFrom (l : List Node) (i : Nat) : Prop :=
  ∀ c, 0 < c → c < l.length → i ≤ (c - 1) / 2 → kOf l ((c - 1) / 2) ≤ kOf l c

/-- Index j lies in the subtree of index i in the implicit binary tree of
heap positions. -/
inductive Desc : Nat → Nat → Prop where
  | refl (i : Nat) : Desc i i
  | left {i j : Nat} : Desc i j → Desc i (2 * j + 1)
  | right {i j : Nat} : Desc i j → Desc i (2 * j + 2)

/-- Well-formed trees as build_huffman_tree creates them: leaves carry a
character and no children, internal nodes carry no character and two
well-formed children. -/
inductive IsHuff : Node → Prop where
  | leaf (c : Char) (f : Int) : IsHuff (Node.mk (some c) f Node.null Node.null)
  | node {l r : Node} (f : Int) : IsHuff l → IsHuff r → IsHuff (Node.mk none f l r)

/-- The greedy merge loop exactly as section 4.1 of the specification
describes it, as a relation between the starting pool of nodes, the merge
trace, and the final pool: each step removes two nodes a and b such that a
has minimal weight in the pool and b has minimal weight among the rest,
adds the internal node with left child a, right child b and the summed
weight, and records the triple of a, b and that weight. -/
inductive GreedyTrace : Multiset Node → List (Node × Node × Int) → Multiset Node → Prop where
  | nil (m : Multiset Node) : GreedyTrace m [] m
  | step {m mEnd : Multiset Node} {rest : List (Node × Node × Int)} (a b : Node) :
      a ∈ m → b ∈ m.erase a →
      (∀ x ∈ m, a.freq ≤ x.freq) →
      (∀ x ∈ m.erase a, b.freq ≤ x.freq) →
      GreedyTrace ((m.erase a).erase b + {Node.mk none (a.freq + b.freq) a b}) rest mEnd →
      GreedyTrace m ((a, b, a.freq + b.freq) :: rest) mEnd

/-- Total weight of a pool of nodes. -/
def poolW (m : Multiset Node) : Int := (m.map Node.freq).sum

/-- All leaf characters of a pool of nodes, as a multiset. -/
def poolC (m : Multiset Node) : Multiset Char :=
  (m.map fun nd => ((leafChars nd : List Char) : Multiset Char)).sum

/-- Modelled from the spec: the repository ships no decoder, and section 8
of the specification requires one built from the prefix tree for the
round-trip property. Following the bits from the given node, go left on 0
and right on 1 until a node carrying a character is reached; return that
character and the unconsumed bits. -/
def walk : Node → List Char → Option (Char × List Char)
  | Node.mk (some c) _ _ _, bits => some (c, bits)
  | Node.mk none _ l r, b :: bits => if b = '0' then walk l bits else walk r bits
  | Node.mk none _ _ _, [] => none
  | Node.null, _ => none

/-- Modelled from the spec: the decoding loop, walking from the root once
per decoded symbol. Fuel equal to the bit count suffices whenever every
code is nonempty. -/
def decodeLoop (root : Node) : Nat → List Char → Option (List Char)
  | _, [] => some []
  | 0, _ :: _ => none
  | fuel + 1, b :: bits =>
    match walk root (b :: bits) with
    | none => none
    | some (c, rest) => (decodeLoop root fuel rest).map fun cs => c :: cs

/-- Modelled from the spec: decode a bit string with the prefix tree. -/
def decode (root : Node) (bits : List Char) : Option (List Char) :=
  decodeLoop root bits.length bits

/-! ## Basic lemmas about list indexing, setting and multisets -/

theorem getD_set_eq (l : List Node) (i : Nat) (x d : Node) (h : i < l.length) :
    (l.set i x).getD i d = x := by
  induction l generalizing i with
  | nil => simp at h
  | cons a t ih =>
    cases i with
    | zero => simp
    | succ n => simpa using ih n (by simpa using h)

theorem getD_set_ne (l : List Node) (i j : Nat) (x d : Node) (h : i ≠ j) :
    (l.set i x).getD j d = l.getD j d := by
  induction l generalizing i j with
  | nil => simp
  | cons a t ih =>
    cases i with
    | zero =>
      cases j with
      | zero => exact absurd rfl h
      | succ m => simp
    | succ n =>
      cases j with
      | zero => simp
      | succ m => simpa using ih n m (by omega)

theorem set_getD_self (l : List Node) (i : Nat) (d : Node) (h : i < l.length) :
    l.set i (l.getD i d) = l := by
  induction l generalizing i with
  | nil => simp at h
  | cons a t ih =>
    cases i with
    | zero => simp
    | succ n => simpa using ih n (by simpa using h)

theorem getD_append_lt (l1 l2 : List Node) (j : Nat) (d : Node) (h : j < l1.length) :
    (l1 ++ l2).getD j d = l1.getD j d := by
  induction l1 generalizing j with
  | nil => simp at h
  | cons a t ih =>
    cases j with
    | zero => simp
    | succ n => simpa using ih n (by simpa using h)

theorem getD_append_len (l1 : List Node) (x d : Node) :
    (l1 ++ [x]).getD l1.length d = x := by
  induction l1 with
  | nil => simp
  | cons a t ih =>
    simp only [List.cons_append, List.length_cons, List.getD_cons_succ]
    exact ih

theorem getD_mem (l : List Node) (i : Nat) (d : Node) (h : i < l.length) :
    l.getD i d ∈ l := by
  induction l generalizing i with
  | nil => simp at h
  | cons a t ih =>
    cases i with
    | zero => simp
    | succ n => exact List.mem_cons_of_mem _ (ih n (by simpa using h))

theorem mem_getD_exists (l : List Node) (x d : Node) (h : x ∈ l) :
    ∃ i, i < l.length ∧ l.getD i d = x := by
  induction l with
  | nil => simp at h
  | cons a t ih =>
    rcases List.mem_cons.mp h with rfl | hx
    · exact ⟨0, by simp, by simp⟩
    · obtain ⟨i, hi, he⟩ := ih hx
      exact ⟨i + 1, by simpa using hi, by simpa using he⟩

theorem dropLast_append_getLastD (l : List Node) (d : Node) (h : l ≠ []) :
    l.dropLast ++ [l.getLastD d] = l := by
  induction l generalizing d with
  | nil => exact absurd rfl h
  | cons a t ih =>
    cases t with
    | nil => simp
    | cons b t2 => simpa using ih a (by simp)

theorem mset_set (l : List Node) (i : Nat) (x d : Node) (h : i < l.length) :
    ((l.set i x : List Node) : Multiset Node) + {l.getD i d} =
      ((l : List Node) : Multiset Node) + {x} := by
  induction l generalizing i with
  | nil => simp at h
  | cons a t ih =>
    cases i with
    | zero =>
      show ((x :: t : List Node) : Multiset Node) + {a} = ((a :: t : List Node) : Multiset Node) + {x}
      rw [← Multiset.cons_coe, ← Multiset.cons_coe, ← Multiset.singleton_add,
        ← Multiset.singleton_add]
      abel
    | succ n =>
      show ((a :: t.set n x : List Node) : Multiset Node) + {t.getD n d} =
        ((a :: t : List Node) : Multiset Node) + {x}
      rw [← Multiset.cons_coe, ← Multiset.cons_coe, Multiset.cons_add, Multiset.cons_add]
      rw [ih n (by simpa using h)]

theorem mset_set_cancel (l : List Node) (p q : Nat) (x d : Node)
    (hp : p < l.length) (hq : q < l.length) (hne : p ≠ q) :
    (((l.set p (l.getD q d)).set q x : List Node) : Multiset Node) =
      ((l.set p x : List Node) : Multiset Node) := by
  have hA := mset_set (l.set p (l.getD q d)) q x d (by simpa using hq)
  rw [getD_set_ne l p q _ d hne] at hA
  have hB := mset_set l p (l.getD q d) d hp
  have hC := mset_set l p x d hp
  rw [Multiset.ext]
  intro y
  have cA := congrArg (Multiset.count y) hA
  have cB := congrArg (Multiset.count y) hB
  have cC := congrArg (Multiset.count y) hC
  simp only [Multiset.count_add] at cA cB cC
  omega

theorem mset_set_self (l : List Node) (i : Nat) (d : Node) (h : i < l.length) :
    ((l.set i (l.getD i d) : List Node) : Multiset Node) = ((l : List Node) : Multiset Node) := by
  rw [set_getD_self l i d h]

/-! ## Lemmas about the subtree relation on heap indices -/

theorem Desc.le {i j : Nat} (h : Desc i j) : i ≤ j := by
  induction h with
  | refl => exact Nat.le_refl _
  | left _ ih => omega
  | right _ ih => omega

theorem Desc.parent {s c : Nat} (h : Desc s c) (hne : c ≠ s) : Desc s ((c - 1) / 2) := by
  cases h with
  | refl => exact absurd rfl hne
  | @left j hj =>
    have e : (2 * j + 1 - 1) / 2 = j := by omega
    rw [e]
    exact hj
  | @right j hj =>
    have e : (2 * j + 2 - 1) / 2 = j := by omega
    rw [e]
    exact hj

theorem Desc.strict_gt {s c : Nat} (h : Desc s c) (hne : c ≠ s) : s < c := by
  have h1 := (h.parent hne).le
  have h2 := h.le
  omega

theorem desc_zero (j : Nat) : Desc 0 j := by
  induction j using Nat.strong_induction_on with
  | _ j ih =>
    rcases Nat.eq_zero_or_pos j with rfl | hj
    · exact Desc.refl 0
    · have hd := ih ((j - 1) / 2) (by omega)
      have : j = 2 * ((j - 1) / 2) + 1 ∨ j = 2 * ((j - 1) / 2) + 2 := by omega
      rcases this with e | e
      · rw [e]; exact Desc.left hd
      · rw [e]; exact Desc.right hd

theorem kOf_set_eq (l : List Node) (i : Nat) (x : Node) (h : i < l.length) :
    kOf (l.set i x) i = x.freq := by
  unfold kOf
  rw [getD_set_eq l i x Node.null h]

theorem kOf_set_ne (l : List Node) (i j : Nat) (x : Node) (h : i ≠ j) :
    kOf (l.set i x) j = kOf l j := by
  unfold kOf
  rw [getD_set_ne l i j x Node.null h]

/-! ## Correctness of the upward-restore loop -/

theorem siftdownLoop_spec (s : Nat) (ni : Node) :
    ∀ fuel pos l, pos ≤ fuel → pos < l.length → Desc s pos →
    (∀ c, 0 < c → c < l.length → Desc s ((c - 1) / 2) → c ≠ pos →
        kOf (l.set pos ni) ((c - 1) / 2) ≤ kOf (l.set pos ni) c) →
    (s < pos → ∀ c, c < l.length → (c - 1) / 2 = pos →
        kOf (l.set pos ni) ((pos - 1) / 2) ≤ kOf (l.set pos ni) c) →
    (siftdownLoop ni s fuel l pos).length = l.length ∧
    ((siftdownLoop ni s fuel l pos : List Node) : Multiset Node) =
      ((l.set pos ni : List Node) : Multiset Node) ∧
    (∀ c, 0 < c → c < l.length → Desc s ((c - 1) / 2) →
        kOf (siftdownLoop ni s fuel l pos) ((c - 1) / 2) ≤
          kOf (siftdownLoop ni s fuel l pos) c) ∧
    (∀ j, ¬ Desc s j →
        (siftdownLoop ni s fuel l pos).getD j Node.null = l.getD j Node.null) := by
  intro fuel
  induction fuel with
  | zero =>
    intro pos l hf hlen hdesc hU1 _
    have hp0 : pos = 0 := Nat.le_zero.mp hf
    subst hp0
    refine ⟨by simp [siftdownLoop], rfl, ?_, ?_⟩
    · intro c hc hclen hdc
      show kOf (l.set 0 ni) ((c - 1) / 2) ≤ kOf (l.set 0 ni) c
      exact hU1 c hc hclen hdc (by omega)
    · intro j hj
      have hs0 : s = 0 := Nat.le_zero.mp hdesc.le
      exact absurd (hs0 ▸ desc_zero j) hj
  | succ fuel ih =>
    intro pos l hf hlen hdesc hU1 hU2
    by_cases hsp : s < pos
    · have hpos1 : 1 ≤ pos := by omega
      have hppx : (pos - 1) / 2 < pos := by omega
      have hpplen : (pos - 1) / 2 < l.length := by omega
      have hdescpp : Desc s ((pos - 1) / 2) := hdesc.parent (by omega)
      by_cases hlt : Node.lt ni (l.getD ((pos - 1) / 2) Node.null)
      · have hstep : siftdownLoop ni s (fuel + 1) l pos =
            siftdownLoop ni s fuel
              (l.set pos (l.getD ((pos - 1) / 2) Node.null)) ((pos - 1) / 2) := by
          simp only [siftdownLoop]
          rw [if_pos hsp, if_pos hlt]
        rw [hstep]
        have hlen' : (l.set pos (l.getD ((pos - 1) / 2) Node.null)).length = l.length := by
          simp
        have hltk : ni.freq < kOf l ((pos - 1) / 2) := hlt
        -- key values in the shifted configuration
        have kpp : kOf ((l.set pos (l.getD ((pos - 1) / 2) Node.null)).set
            ((pos - 1) / 2) ni) ((pos - 1) / 2) = ni.freq := by
          rw [kOf_set_eq]
          rw [hlen']
          exact hpplen
        have kpos : kOf ((l.set pos (l.getD ((pos - 1) / 2) Node.null)).set
            ((pos - 1) / 2) ni) pos = kOf l ((pos - 1) / 2) := by
          rw [kOf_set_ne _ _ _ _ (by omega)]
          rw [kOf_set_eq l pos _ hlen]
          rfl
        have kother : ∀ j, j ≠ pos → j ≠ (pos - 1) / 2 →
            kOf ((l.set pos (l.getD ((pos - 1) / 2) Node.null)).set
              ((pos - 1) / 2) ni) j = kOf l j := by
          intro j hj1 hj2
          rw [kOf_set_ne _ _ _ _ (Ne.symm hj2), kOf_set_ne _ _ _ _ (Ne.symm hj1)]
        have kLpos : kOf (l.set pos ni) pos = ni.freq := kOf_set_eq l pos ni hlen
        have kLother : ∀ j, j ≠ pos → kOf (l.set pos ni) j = kOf l j := by
          intro j hj
          exact kOf_set_ne l pos j ni (Ne.symm hj)
        have hU1' : ∀ c, 0 < c →
            c < (l.set pos (l.getD ((pos - 1) / 2) Node.null)).length →
            Desc s ((c - 1) / 2) → c ≠ (pos - 1) / 2 →
            kOf ((l.set pos (l.getD ((pos - 1) / 2) Node.null)).set ((pos - 1) / 2) ni)
              ((c - 1) / 2) ≤
            kOf ((l.set pos (l.getD ((pos - 1) / 2) Node.null)).set ((pos - 1) / 2) ni) c := by
          intro c hc hclen hdc hcpp
          rw [hlen'] at hclen
          by_cases hcpos : c = pos
          · subst hcpos
            rw [kpp, kpos]
            exact le_of_lt hltk
          · by_cases hapos : (c - 1) / 2 = pos
            · have hcbig : 2 * pos + 1 ≤ c := by omega
              rw [hapos, kpos, kother c hcpos (by omega)]
              have h2 := hU2 hsp c hclen hapos
              rw [kLother ((pos - 1) / 2) (by omega), kLother c hcpos] at h2
              exact h2
            · by_cases happ : (c - 1) / 2 = (pos - 1) / 2
              · have hcbig : 2 * ((pos - 1) / 2) + 1 ≤ c := by omega
                rw [happ, kpp, kother c hcpos (by omega)]
                have h1 := hU1 c hc hclen (happ ▸ hdc) hcpos
                rw [happ] at h1
                rw [kLother ((pos - 1) / 2) (by omega), kLother c hcpos] at h1
                exact le_trans (le_of_lt hltk) h1
              · rw [kother ((c - 1) / 2) hapos happ, kother c hcpos hcpp]
                have h1 := hU1 c hc hclen hdc hcpos
                rw [kLother ((c - 1) / 2) hapos, kLother c hcpos] at h1
                exact h1
        have hU2' : s < (pos - 1) / 2 →
            ∀ c, c < (l.set pos (l.getD ((pos - 1) / 2) Node.null)).length →
            (c - 1) / 2 = (pos - 1) / 2 →
            kOf ((l.set pos (l.getD ((pos - 1) / 2) Node.null)).set ((pos - 1) / 2) ni)
              (((pos - 1) / 2 - 1) / 2) ≤
            kOf ((l.set pos (l.getD ((pos - 1) / 2) Node.null)).set ((pos - 1) / 2) ni) c := by
          intro hspp c hclen hcpar
          rw [hlen'] at hclen
          have hpp1 : 1 ≤ (pos - 1) / 2 := by omega
          have hgpx : ((pos - 1) / 2 - 1) / 2 < (pos - 1) / 2 := by omega
          have hgppos : ((pos - 1) / 2 - 1) / 2 ≠ pos := by omega
          have hgppp : ((pos - 1) / 2 - 1) / 2 ≠ (pos - 1) / 2 := by omega
          have hdescgp : Desc s (((pos - 1) / 2 - 1) / 2) := hdescpp.parent (by omega)
          have hedge : kOf l (((pos - 1) / 2 - 1) / 2) ≤ kOf l ((pos - 1) / 2) := by
            have h1 := hU1 ((pos - 1) / 2) (by omega) hpplen hdescgp (by omega)
            rw [kLother (((pos - 1) / 2 - 1) / 2) hgppos,
              kLother ((pos - 1) / 2) (by omega)] at h1
            exact h1
          rw [kother (((pos - 1) / 2 - 1) / 2) hgppos hgppp]
          by_cases hcpos : c = pos
          · subst hcpos
            rw [kpos]
            exact hedge
          · have hcbig : 2 * ((pos - 1) / 2) + 1 ≤ c := by omega
            rw [kother c hcpos (by omega)]
            have h2 := hU1 c (by omega) hclen (hcpar ▸ hdescpp) hcpos
            rw [hcpar] at h2
            rw [kLother ((pos - 1) / 2) (by omega), kLother c hcpos] at h2
            exact le_trans hedge h2
        obtain ⟨ihlen, ihmset, ihheap, ihloc⟩ :=
          ih ((pos - 1) / 2) (l.set pos (l.getD ((pos - 1) / 2) Node.null))
            (by omega) (by simpa using hpplen) hdescpp hU1' hU2'
        refine ⟨by rw [ihlen, hlen'], ?_, ?_, ?_⟩
        · rw [ihmset]
          exact mset_set_cancel l pos ((pos - 1) / 2) ni Node.null hlen hpplen (by omega)
        · intro c hc hclen hdc
          exact ihheap c hc (by simpa using hclen) hdc
        · intro j hj
          rw [ihloc j hj]
          have hjpos : j ≠ pos := fun e => hj (e ▸ hdesc)
          exact getD_set_ne l pos j _ Node.null (Ne.symm hjpos)
      · have hstep : siftdownLoop ni s (fuel + 1) l pos = l.set pos ni := by
          simp only [siftdownLoop]
          rw [if_pos hsp, if_neg hlt]
        rw [hstep]
        refine ⟨by simp, rfl, ?_, ?_⟩
        · intro c hc hclen hdc
          by_cases hcpos : c = pos
          · subst hcpos
            rw [kOf_set_eq l c ni hlen, kOf_set_ne l c _ ni (by omega)]
            have : ¬ ni.freq < kOf l ((c - 1) / 2) := hlt
            omega
          · exact hU1 c hc hclen hdc hcpos
        · intro j hj
          have hjpos : j ≠ pos := fun e => hj (e ▸ hdesc)
          exact getD_set_ne l pos j ni Node.null (Ne.symm hjpos)
    · have hstep : siftdownLoop ni s (fuel + 1) l pos = l.set pos ni := by
        simp only [siftdownLoop]
        rw [if_neg hsp]
      rw [hstep]
      have hspos : s = pos := by
        have := hdesc.le
        omega
      refine ⟨by simp, rfl, ?_, ?_⟩
      · intro c hc hclen hdc
        by_cases hcpos : c = pos
        · subst hcpos
          have hcs : c = s := hspos.symm
          have := hdc.le
          omega
        · exact hU1 c hc hclen hdc hcpos
      · intro j hj
        have hjpos : j ≠ pos := fun e => hj (e ▸ hdesc)
        exact getD_set_ne l pos j ni Node.null (Ne.symm hjpos)

theorem set_set_same (l : List Node) (i : Nat) (a b : Node) :
    (l.set i a).set i b = l.set i b := by
  induction l generalizing i with
  | nil => simp
  | cons x t ih =>
    cases i with
    | zero => simp
    | succ n => simp [ih n]

/-! ## Correctness of the downward-walk loop -/

theorem siftupLoop_spec (s : Nat) :
    ∀ fuel endpos l pos, endpos = l.length → endpos ≤ fuel + pos + 1 → pos < endpos →
    Desc s pos →
    (∀ c, 0 < c → c < endpos → Desc s ((c - 1) / 2) → c ≠ pos → (c - 1) / 2 ≠ pos →
        kOf l ((c - 1) / 2) ≤ kOf l c) →
    (s < pos → ∀ c, c < endpos → (c - 1) / 2 = pos → kOf l ((pos - 1) / 2) ≤ kOf l c) →
    (siftupLoop fuel endpos l pos).1.length = l.length ∧
    Desc s (siftupLoop fuel endpos l pos).2 ∧
    (siftupLoop fuel endpos l pos).2 < endpos ∧
    ¬ (2 * (siftupLoop fuel endpos l pos).2 + 1 < endpos) ∧
    (∀ x : Node,
      (((siftupLoop fuel endpos l pos).1.set (siftupLoop fuel endpos l pos).2 x :
          List Node) : Multiset Node) =
        ((l.set pos x : List Node) : Multiset Node)) ∧
    (∀ j, ¬ Desc s j →
        (siftupLoop fuel endpos l pos).1.getD j Node.null = l.getD j Node.null) ∧
    (∀ c, 0 < c → c < endpos → Desc s ((c - 1) / 2) →
        c ≠ (siftupLoop fuel endpos l pos).2 → (c - 1) / 2 ≠ (siftupLoop fuel endpos l pos).2 →
        kOf (siftupLoop fuel endpos l pos).1 ((c - 1) / 2) ≤
          kOf (siftupLoop fuel endpos l pos).1 c) ∧
    (s < (siftupLoop fuel endpos l pos).2 →
        ∀ c, c < endpos → (c - 1) / 2 = (siftupLoop fuel endpos l pos).2 →
        kOf (siftupLoop fuel endpos l pos).1 (((siftupLoop fuel endpos l pos).2 - 1) / 2) ≤
          kOf (siftupLoop fuel endpos l pos).1 c) := by
  intro fuel
  induction fuel with
  | zero =>
    intro endpos l pos hend hfuel hpos hdesc hD1 hD2
    refine ⟨rfl, hdesc, hpos, ?_, fun x => rfl, fun j _ => rfl, hD1, hD2⟩
    show ¬ 2 * pos + 1 < endpos
    omega
  | succ fuel ih =>
    intro endpos l pos hend hfuel hpos hdesc hD1 hD2
    by_cases hchild : 2 * pos + 1 < endpos
    · have hstep : siftupLoop (fuel + 1) endpos l pos =
          siftupLoop fuel endpos
            (l.set pos (l.getD (childSel endpos l pos) Node.null)) (childSel endpos l pos) := by
        simp only [siftupLoop]
        rw [if_pos hchild]
      have hcp_cases : childSel endpos l pos = 2 * pos + 1 ∨
          childSel endpos l pos = 2 * pos + 2 := by
        unfold childSel
        split
        · exact Or.inr rfl
        · exact Or.inl rfl
      have hcp_lt : childSel endpos l pos < endpos := by
        unfold childSel
        split
        · omega
        · omega
      have hcp_gt : pos < childSel endpos l pos := by
        rcases hcp_cases with e | e <;> omega
      have hcp_par : (childSel endpos l pos - 1) / 2 = pos := by
        rcases hcp_cases with e | e <;> omega
      have hmin : ∀ c, 0 < c → c < endpos → (c - 1) / 2 = pos →
          kOf l (childSel endpos l pos) ≤ kOf l c := by
        intro c hc0 hclen hcpar
        have hcrange : c = 2 * pos + 1 ∨ c = 2 * pos + 2 := by omega
        unfold childSel
        split
        · rename_i hcond
          have hle : kOf l (2 * pos + 2) ≤ kOf l (2 * pos + 1) := by
            have := hcond.2
            unfold Node.lt at this
            unfold kOf
            omega
          rcases hcrange with rfl | rfl
          · exact hle
          · exact le_refl _
        · rename_i hcond
          rcases hcrange with rfl | rfl
          · exact le_refl _
          · rw [Classical.not_and_iff_or_not_not] at hcond
            rcases hcond with hbig | hlt2
            · omega
            · have : Node.lt (l.getD (2 * pos + 1) Node.null) (l.getD (2 * pos + 2) Node.null) := by
                exact not_not.mp hlt2
              unfold Node.lt at this
              unfold kOf
              omega
      have hdesc_cp : Desc s (childSel endpos l pos) := by
        rcases hcp_cases with e | e
        · rw [e]; exact Desc.left hdesc
        · rw [e]; exact Desc.right hdesc
      have hlen' : (l.set pos (l.getD (childSel endpos l pos) Node.null)).length = l.length := by
        simp
      have kpos' : kOf (l.set pos (l.getD (childSel endpos l pos) Node.null)) pos =
          kOf l (childSel endpos l pos) := by
        rw [kOf_set_eq l pos _ (by omega)]
        rfl
      have kother' : ∀ j, j ≠ pos →
          kOf (l.set pos (l.getD (childSel endpos l pos) Node.null)) j = kOf l j := by
        intro j hj
        exact kOf_set_ne l pos j _ (Ne.symm hj)
      have hD1' : ∀ c, 0 < c → c < endpos → Desc s ((c - 1) / 2) →
          c ≠ childSel endpos l pos → (c - 1) / 2 ≠ childSel endpos l pos →
          kOf (l.set pos (l.getD (childSel endpos l pos) Node.null)) ((c - 1) / 2) ≤
            kOf (l.set pos (l.getD (childSel endpos l pos) Node.null)) c := by
        intro c hc hclen hdc hccp hacp
        by_cases hcpos : c = pos
        · subst hcpos
          have hc1 : 1 ≤ c := hc
          have hapos : (c - 1) / 2 ≠ c := by omega
          rw [kother' ((c - 1) / 2) hapos, kpos']
          have hsc : s < c := by
            rcases Nat.lt_or_ge s c with h | h
            · exact h
            · exfalso
              have hse : s = c := by
                have := hdesc.le
                omega
              subst hse
              have := hdc.le
              omega
          have h2 := hD2 hsc (childSel endpos l c) hcp_lt hcp_par
          exact h2
        · by_cases hapos : (c - 1) / 2 = pos
          · rw [hapos, kpos', kother' c hcpos]
            exact hmin c hc hclen hapos
          · rw [kother' ((c - 1) / 2) hapos, kother' c hcpos]
            exact hD1 c hc hclen hdc hcpos hapos
      have hD2' : s < childSel endpos l pos →
          ∀ c, c < endpos → (c - 1) / 2 = childSel endpos l pos →
          kOf (l.set pos (l.getD (childSel endpos l pos) Node.null))
            ((childSel endpos l pos - 1) / 2) ≤
            kOf (l.set pos (l.getD (childSel endpos l pos) Node.null)) c := by
        intro _ c hclen hcpar
        have hcbig : 2 * childSel endpos l pos + 1 ≤ c := by omega
        have hcpos : c ≠ pos := by omega
        rw [hcp_par, kpos', kother' c hcpos]
        have h1 := hD1 c (by omega) hclen (hcpar ▸ hdesc_cp) hcpos (by omega)
        rw [hcpar] at h1
        exact h1
      obtain ⟨ihlen, ihdesc, ihlt, ihnoc, ihmset, ihloc, ihD1, ihD2⟩ :=
        ih endpos (l.set pos (l.getD (childSel endpos l pos) Node.null))
          (childSel endpos l pos) (by rw [hlen', hend]) (by omega) hcp_lt hdesc_cp hD1' hD2'
      rw [hstep]
      refine ⟨by rw [ihlen, hlen'], ihdesc, ihlt, ihnoc, ?_, ?_, ihD1, ihD2⟩
      · intro x
        rw [ihmset x]
        exact mset_set_cancel l pos (childSel endpos l pos) x Node.null (by omega) (by omega)
          (by omega)
      · intro j hj
        rw [ihloc j hj]
        have hjpos : j ≠ pos := fun e => hj (e ▸ hdesc)
        exact getD_set_ne l pos j _ Node.null (Ne.symm hjpos)
    · have hstep : siftupLoop (fuel + 1) endpos l pos = (l, pos) := by
        simp only [siftupLoop]
        rw [if_neg hchild]
      rw [hstep]
      exact ⟨rfl, hdesc, hpos, hchild, fun x => rfl, fun j _ => rfl, hD1, hD2⟩

/-! ## Correctness of the combined sift at a position -/

theorem siftup_spec (l : List Node) (s : Nat) (hs : s < l.length)
    (pre : ∀ c, 0 < c → c < l.length → Desc s ((c - 1) / 2) → (c - 1) / 2 ≠ s →
        kOf l ((c - 1) / 2) ≤ kOf l c) :
    (siftup l s).length = l.length ∧
    ((siftup l s : List Node) : Multiset Node) = ((l : List Node) : Multiset Node) ∧
    (∀ c, 0 < c → c < l.length → Desc s ((c - 1) / 2) →
        kOf (siftup l s) ((c - 1) / 2) ≤ kOf (siftup l s) c) ∧
    (∀ j, ¬ Desc s j → (siftup l s).getD j Node.null = l.getD j Node.null) := by
  obtain ⟨Slen, Sdesc, Slt, Snoc, Smset, Sloc, SD1, SD2⟩ :=
    siftupLoop_spec s l.length l.length l s rfl (by omega) hs (Desc.refl s)
      (fun c hc hclen hdc hcs has => pre c hc hclen hdc has)
      (fun h => absurd h (by omega))
  rcases hSP : siftupLoop l.length l.length l s with ⟨h2, p2⟩
  rw [hSP] at Slen Sdesc Slt Snoc Smset Sloc SD1 SD2
  simp only at Slen Sdesc Slt Snoc Smset Sloc SD1 SD2
  have hsu : siftup l s =
      siftdownLoop ((h2.set p2 (l.getD s Node.null)).getD p2 Node.null) s p2
        (h2.set p2 (l.getD s Node.null)) p2 := by
    simp only [siftup, siftdown]
    rw [hSP]
  have hp2len : p2 < (h2.set p2 (l.getD s Node.null)).length := by
    simp only [List.length_set]
    omega
  have hread : (h2.set p2 (l.getD s Node.null)).getD p2 Node.null = l.getD s Node.null := by
    exact getD_set_eq h2 p2 _ Node.null (by omega)
  rw [hread] at hsu
  have hself : (h2.set p2 (l.getD s Node.null)).set p2 (l.getD s Node.null) =
      h2.set p2 (l.getD s Node.null) := set_set_same h2 p2 _ _
  obtain ⟨Dlen, Dmset, Dheap, Dloc⟩ :=
    siftdownLoop_spec s (l.getD s Node.null) p2 p2 (h2.set p2 (l.getD s Node.null))
      (le_refl p2) hp2len Sdesc
      (by
        intro c hc hclen hdc hcp2
        rw [hself]
        simp only [List.length_set] at hclen
        by_cases hap2 : (c - 1) / 2 = p2
        · exfalso
          omega
        · have hc2 : kOf h2 ((c - 1) / 2) ≤ kOf h2 c := by
            apply SD1 c hc (by omega) hdc hcp2 hap2
          rw [kOf_set_ne h2 p2 _ _ (Ne.symm hap2), kOf_set_ne h2 p2 _ _ (Ne.symm hcp2)]
          exact hc2)
      (by
        intro hsp2 c hclen hcpar
        exfalso
        simp only [List.length_set] at hclen
        omega)
  rw [hsu]
  rw [hself] at Dmset
  refine ⟨?_, ?_, ?_, ?_⟩
  · rw [Dlen]
    simp only [List.length_set]
    omega
  · rw [Dmset, Smset]
    exact mset_set_self l s Node.null hs
  · intro c hc hclen hdc
    apply Dheap c hc _ hdc
    simp only [List.length_set]
    omega
  · intro j hj
    rw [Dloc j hj]
    have hjp2 : j ≠ p2 := fun e => hj (e ▸ Sdesc)
    rw [getD_set_ne h2 p2 j _ Node.null (Ne.symm hjp2)]
    exact Sloc j hj

/-! ## Correctness of heapify, heappush and heappop -/

theorem heapFrom_half (l : List Node) : heapFrom l (l.length / 2) := by
  intro c hc hclen hge
  omega

theorem heapFrom_zero_isHeap (l : List Node) (h : heapFrom l 0) : isHeap l :=
  fun c hc hclen => h c hc hclen (Nat.zero_le _)

theorem heapifyLoop_spec : ∀ m l, m ≤ l.length / 2 → heapFrom l m →
    (heapifyLoop m l).length = l.length ∧
    ((heapifyLoop m l : List Node) : Multiset Node) = ((l : List Node) : Multiset Node) ∧
    heapFrom (heapifyLoop m l) 0 := by
  intro m
  induction m with
  | zero =>
    intro l _ hf
    exact ⟨rfl, rfl, hf⟩
  | succ m ih =>
    intro l hm hf
    have hmlen : m < l.length := by omega
    have pre : ∀ c, 0 < c → c < l.length → Desc m ((c - 1) / 2) → (c - 1) / 2 ≠ m →
        kOf l ((c - 1) / 2) ≤ kOf l c := by
      intro c hc hclen hdc hne
      have := hdc.strict_gt hne
      exact hf c hc hclen (by omega)
    obtain ⟨slen, smset, sheap, sloc⟩ := siftup_spec l m hmlen pre
    have hf' : heapFrom (siftup l m) m := by
      intro c hc hclen hge
      rw [slen] at hclen
      by_cases hdm : Desc m ((c - 1) / 2)
      · exact sheap c hc hclen hdm
      · have hm0 : ¬ m = 0 := fun e => hdm (e ▸ desc_zero _)
        have hane : (c - 1) / 2 ≠ m := fun e => hdm (e ▸ Desc.refl m)
        have hcm : ¬ Desc m c := by
          intro hdc
          have hcne : c ≠ m := by omega
          exact hdm (hdc.parent hcne)
        have e1 := sloc ((c - 1) / 2) hdm
        have e2 := sloc c hcm
        unfold kOf
        rw [e1, e2]
        exact hf c hc hclen (by omega)
    have hstep : heapifyLoop (m + 1) l = heapifyLoop m (siftup l m) := rfl
    rw [hstep]
    obtain ⟨ilen, imset, iheap⟩ := ih (siftup l m) (by rw [slen]; omega) hf'
    exact ⟨ilen.trans slen, imset.trans smset, iheap⟩

theorem heapify_spec (l : List Node) :
    (heapify l).length = l.length ∧
    ((heapify l : List Node) : Multiset Node) = ((l : List Node) : Multiset Node) ∧
    isHeap (heapify l) := by
  obtain ⟨a, b, c⟩ := heapifyLoop_spec (l.length / 2) l (le_refl _) (heapFrom_half l)
  exact ⟨a, b, heapFrom_zero_isHeap _ c⟩

theorem isHeap_root_min (l : List Node) (hh : isHeap l) :
    ∀ i, i < l.length → kOf l 0 ≤ kOf l i := by
  intro i
  induction i using Nat.strong_induction_on with
  | _ i ih =>
    intro hi
    rcases Nat.eq_zero_or_pos i with rfl | hpos
    · exact le_refl _
    · have hp := hh i hpos hi
      have := ih ((i - 1) / 2) (by omega) (by omega)
      omega

theorem isHeap_root_min_mem (l : List Node) (hh : isHeap l) (x : Node) (hx : x ∈ l) :
    (l.getD 0 Node.null).freq ≤ x.freq := by
  obtain ⟨i, hi, he⟩ := mem_getD_exists l x Node.null hx
  have hmin := isHeap_root_min l hh i hi
  unfold kOf at hmin
  rw [he] at hmin
  exact hmin

theorem heappush_spec (h : List Node) (item : Node) (hh : isHeap h) :
    (heappush h item).length = h.length + 1 ∧
    ((heappush h item : List Node) : Multiset Node) = ((h : List Node) : Multiset Node) + {item} ∧
    isHeap (heappush h item) := by
  have hread : (h ++ [item]).getD h.length Node.null = item := getD_append_len h item Node.null
  have hpos : h.length < (h ++ [item]).length := by simp
  have hself : (h ++ [item]).set h.length item = h ++ [item] := by
    have e := set_getD_self (h ++ [item]) h.length Node.null hpos
    rw [hread] at e
    exact e
  have hpush : heappush h item = siftdownLoop item 0 h.length (h ++ [item]) h.length := by
    simp only [heappush, siftdown]
    rw [hread]
  obtain ⟨dlen, dmset, dheap, dloc⟩ :=
    siftdownLoop_spec 0 item h.length h.length (h ++ [item]) (le_refl _) hpos (desc_zero _)
      (by
        intro c hc hclen hdc hcpos
        rw [hself]
        have hclt : c < h.length := by
          simp only [List.length_append, List.length_singleton] at hclen
          omega
        have halt : (c - 1) / 2 < h.length := by omega
        unfold kOf
        rw [getD_append_lt h [item] _ Node.null halt, getD_append_lt h [item] _ Node.null hclt]
        exact hh c hc hclt)
      (by
        intro hsp c hclen hcpar
        simp only [List.length_append, List.length_singleton] at hclen
        omega)
  rw [hpush]
  refine ⟨by rw [dlen]; simp, ?_, ?_⟩
  · rw [dmset, hself]
    rw [← Multiset.coe_add]
    rfl
  · intro c hc hclen
    apply dheap c hc _ (desc_zero _)
    rw [dlen] at hclen
    exact hclen

theorem heappop_some (h : List Node) (hne : h.length ≠ 0) :
    ∃ x h2, heappop h = some (x, h2) := by
  simp only [heappop]
  rw [if_neg hne]
  by_cases hr : h.dropLast.length = 0
  · rw [if_pos hr]
    exact ⟨_, _, rfl⟩
  · rw [if_neg hr]
    exact ⟨_, _, rfl⟩

theorem heappop_spec (h : List Node) (hh : isHeap h) (x : Node) (h2 : List Node)
    (he : heappop h = some (x, h2)) :
    x = h.getD 0 Node.null ∧
    h2.length + 1 = h.length ∧
    ((h : List Node) : Multiset Node) = ((h2 : List Node) : Multiset Node) + {x} ∧
    isHeap h2 := by
  simp only [heappop] at he
  by_cases hz : h.length = 0
  · rw [if_pos hz] at he
    exact absurd he (by simp)
  · rw [if_neg hz] at he
    have hhe : h ≠ [] := fun e => hz (by simp [e])
    by_cases hr : h.dropLast.length = 0
    · rw [if_pos hr] at he
      simp only [Option.some.injEq, Prod.mk.injEq] at he
      obtain ⟨e1, e2⟩ := he
      obtain ⟨a, ha⟩ : ∃ a, h = [a] := by
        cases h with
        | nil => exact absurd rfl hhe
        | cons a t =>
          cases t with
          | nil => exact ⟨a, rfl⟩
          | cons b t2 => simp at hr
      subst ha
      simp only [List.getLastD_cons, List.getLastD_nil] at e1
      subst e1
      refine ⟨rfl, by rw [← e2]; simp, ?_, ?_⟩
      · rw [← e2]
        simp
      · intro c hc hclen
        rw [← e2] at hclen
        simp at hclen
    · rw [if_neg hr] at he
      simp only [Option.some.injEq, Prod.mk.injEq] at he
      obtain ⟨e1, e2⟩ := he
      obtain ⟨r, y, happ, hre, hye⟩ : ∃ r y, r ++ [y] = h ∧ h.dropLast = r ∧
          h.getLastD Node.null = y :=
        ⟨h.dropLast, h.getLastD Node.null, dropLast_append_getLastD h Node.null hhe, rfl, rfl⟩
      rw [hre] at e1 e2
      rw [hye] at e2
      rw [hre] at hr
      have hrlen : 0 < r.length := by omega
      have hlen : h.length = r.length + 1 := by
        rw [← happ]
        simp
      have hhr : isHeap (r ++ [y]) := by
        rw [happ]
        exact hh
      have hl0len : 0 < (r.set 0 y).length := by
        simp only [List.length_set]
        omega
      have pre : ∀ c, 0 < c → c < (r.set 0 y).length → Desc 0 ((c - 1) / 2) →
          (c - 1) / 2 ≠ 0 → kOf (r.set 0 y) ((c - 1) / 2) ≤ kOf (r.set 0 y) c := by
        intro c hc hclen hdc hane
        simp only [List.length_set] at hclen
        rw [kOf_set_ne _ _ _ _ (Ne.symm hane), kOf_set_ne _ _ _ _ (by omega)]
        have hc2 : kOf r ((c - 1) / 2) = kOf (r ++ [y]) ((c - 1) / 2) := by
          unfold kOf
          rw [getD_append_lt _ _ _ _ (by omega)]
        have hc3 : kOf r c = kOf (r ++ [y]) c := by
          unfold kOf
          rw [getD_append_lt _ _ _ _ (by omega)]
        rw [hc2, hc3]
        apply hhr c hc
        simp only [List.length_append, List.length_singleton]
        omega
      obtain ⟨slen, smset, sheap, sloc⟩ := siftup_spec (r.set 0 y) 0 hl0len pre
      refine ⟨?_, ?_, ?_, ?_⟩
      · rw [← e1, ← happ, getD_append_lt _ _ _ _ (by omega)]
      · rw [← e2, slen]
        simp only [List.length_set]
        omega
      · rw [← e2, smset, ← e1, ← happ, ← Multiset.coe_add, Multiset.coe_singleton]
        exact (mset_set r 0 y Node.null (by omega)).symm
      · intro c hc hclen
        rw [← e2] at hclen ⊢
        apply sheap c hc _ (desc_zero _)
        rw [slen] at hclen
        exact hclen

/-! ## The merge loop refines the greedy description of the specification -/

theorem buildLoop_spec : ∀ fuel heap st, heap.length ≤ fuel + 1 → isHeap heap →
    ∃ news, (buildLoop fuel (heap, st)).2 = st ++ news ∧
      GreedyTrace ((heap : List Node) : Multiset Node) news
        (((buildLoop fuel (heap, st)).1 : List Node) : Multiset Node) ∧
      (buildLoop fuel (heap, st)).1.length = min heap.length 1 ∧
      isHeap (buildLoop fuel (heap, st)).1 := by
  intro fuel
  induction fuel with
  | zero =>
    intro heap st hfuel hh
    have hstep : buildLoop 0 (heap, st) = (heap, st) := rfl
    rw [hstep]
    refine ⟨[], by simp, GreedyTrace.nil _, ?_, hh⟩
    show heap.length = min heap.length 1
    omega
  | succ fuel ih =>
    intro heap st hfuel hh
    by_cases hb : 1 < heap.length
    · obtain ⟨a, h1, hpop1⟩ := heappop_some heap (by omega)
      obtain ⟨ha0, hlen1, hmset1, hheap1⟩ := heappop_spec heap hh a h1 hpop1
      obtain ⟨b, h2, hpop2⟩ := heappop_some h1 (by omega)
      obtain ⟨hb0, hlen2, hmset2, hheap2⟩ := heappop_spec h1 hheap1 b h2 hpop2
      obtain ⟨plen, pmset, pheap⟩ :=
        heappush_spec h2 (Node.mk none (a.freq + b.freq) a b) hheap2
      have hstep : buildLoop (fuel + 1) (heap, st) =
          buildLoop fuel (heappush h2 (Node.mk none (a.freq + b.freq) a b),
            st ++ [(a, b, a.freq + b.freq)]) := by
        simp only [buildLoop, hpop1, hpop2, if_pos hb]
      rw [hstep]
      obtain ⟨news, enews, egt, elen, eheap⟩ :=
        ih (heappush h2 (Node.mk none (a.freq + b.freq) a b))
          (st ++ [(a, b, a.freq + b.freq)]) (by omega) pheap
      have he1 : ((heap : List Node) : Multiset Node).erase a =
          ((h1 : List Node) : Multiset Node) := by
        rw [hmset1, add_comm, Multiset.singleton_add, Multiset.erase_cons_head]
      have he2 : ((h1 : List Node) : Multiset Node).erase b =
          ((h2 : List Node) : Multiset Node) := by
        rw [hmset2, add_comm, Multiset.singleton_add, Multiset.erase_cons_head]
      refine ⟨(a, b, a.freq + b.freq) :: news, ?_, ?_, ?_, eheap⟩
      · rw [enews]
        simp
      · apply GreedyTrace.step a b
        · rw [ha0]
          exact Multiset.mem_coe.mpr (getD_mem heap 0 Node.null (by omega))
        · rw [he1, hb0]
          exact Multiset.mem_coe.mpr (getD_mem h1 0 Node.null (by omega))
        · intro x hx
          rw [ha0]
          exact isHeap_root_min_mem heap hh x (Multiset.mem_coe.mp hx)
        · intro x hx
          rw [he1] at hx
          rw [hb0]
          exact isHeap_root_min_mem h1 hheap1 x (Multiset.mem_coe.mp hx)
        · rw [he1, he2, ← pmset]
          exact egt
      · rw [elen, plen]
        omega
    · have hstep : buildLoop (fuel + 1) (heap, st) = (heap, st) := by
        simp only [buildLoop]
        rw [if_neg hb]
      rw [hstep]
      refine ⟨[], by simp, GreedyTrace.nil _, ?_, hh⟩
      show heap.length = min heap.length 1
      omega

theorem build_core (fm : List (Char × Int)) :
    ∃ M : Multiset Node,
      GreedyTrace ((initLeaves fm : List Node) : Multiset Node) (build_huffman_tree fm).2 M ∧
      Multiset.card M ≤ 1 ∧
      (fm = [] → M = 0 ∧ (build_huffman_tree fm).1 = Node.null) ∧
      (fm ≠ [] → M = {(build_huffman_tree fm).1}) := by
  obtain ⟨hlen, hmset, hheap⟩ := heapify_spec (initLeaves fm)
  obtain ⟨news, enews, egt, elen, _⟩ :=
    buildLoop_spec (heapify (initLeaves fm)).length (heapify (initLeaves fm)) []
      (by omega) hheap
  rcases hF : buildLoop (heapify (initLeaves fm)).length (heapify (initLeaves fm), [])
    with ⟨fh, fsteps⟩
  rw [hF] at enews egt elen
  simp only at enews egt elen
  have hbuild : build_huffman_tree fm = (fh.headD Node.null, fsteps) := by
    simp only [build_huffman_tree]
    rw [hF]
  rw [hmset] at egt
  rw [hlen] at elen
  have hleaves : (initLeaves fm).length = fm.length := by
    simp [initLeaves]
  rw [hleaves] at elen
  simp only [List.nil_append] at enews
  refine ⟨((fh : List Node) : Multiset Node), ?_, ?_, ?_, ?_⟩
  · rw [hbuild]
    simp only
    rw [enews]
    exact egt
  · rw [Multiset.coe_card]
    omega
  · intro hfm
    subst hfm
    have h0 : fh = [] := by
      simpa using elen
    subst h0
    rw [hbuild]
    exact ⟨rfl, rfl⟩
  · intro hfm
    have h1 : fh.length = 1 := by
      have : 0 < fm.length := List.length_pos.mpr hfm
      omega
    rw [List.length_eq_one] at h1
    obtain ⟨z, hz⟩ := h1
    subst hz
    rw [hbuild]
    rfl

/-! ## Conservation along a greedy trace -/

theorem poolW_erase (m : Multiset Node) (a : Node) (ha : a ∈ m) :
    poolW m = a.freq + poolW (m.erase a) := by
  unfold poolW
  conv_lhs => rw [← Multiset.cons_erase ha]
  rw [Multiset.map_cons, Multiset.sum_cons]

theorem poolC_erase (m : Multiset Node) (a : Node) (ha : a ∈ m) :
    poolC m = ((leafChars a : List Char) : Multiset Char) + poolC (m.erase a) := by
  unfold poolC
  conv_lhs => rw [← Multiset.cons_erase ha]
  rw [Multiset.map_cons, Multiset.sum_cons]

theorem gt_weight {m : Multiset Node} {tr : List (Node × Node × Int)} {mEnd : Multiset Node}
    (h : GreedyTrace m tr mEnd) : poolW mEnd = poolW m := by
  induction h with
  | nil => rfl
  | @step m mEnd rest a b hma hmb hmin1 hmin2 hrest ih =>
    rw [ih]
    have e1 := poolW_erase m a hma
    have e2 := poolW_erase (m.erase a) b hmb
    have e3 : poolW ((m.erase a).erase b + {Node.mk none (a.freq + b.freq) a b}) =
        poolW ((m.erase a).erase b) + (a.freq + b.freq) := by
      unfold poolW
      rw [Multiset.map_add, Multiset.sum_add, Multiset.map_singleton, Multiset.sum_singleton]
      rfl
    rw [e3]
    omega

theorem gt_chars {m : Multiset Node} {tr : List (Node × Node × Int)} {mEnd : Multiset Node}
    (h : GreedyTrace m tr mEnd) : poolC mEnd = poolC m := by
  induction h with
  | nil => rfl
  | @step m mEnd rest a b hma hmb hmin1 hmin2 hrest ih =>
    rw [ih]
    have e1 := poolC_erase m a hma
    have e2 := poolC_erase (m.erase a) b hmb
    have e3 : poolC ((m.erase a).erase b + {Node.mk none (a.freq + b.freq) a b}) =
        poolC ((m.erase a).erase b) +
          (((leafChars a : List Char) : Multiset Char) +
            ((leafChars b : List Char) : Multiset Char)) := by
      unfold poolC
      rw [Multiset.map_add, Multiset.sum_add, Multiset.map_singleton, Multiset.sum_singleton]
      have e4 : leafChars (Node.mk none (a.freq + b.freq) a b) = leafChars a ++ leafChars b := by
        simp [leafChars]
      rw [e4, ← Multiset.coe_add]
    rw [e3, e1, e2]
    abel

theorem gt_huff {m : Multiset Node} {tr : List (Node × Node × Int)} {mEnd : Multiset Node}
    (h : GreedyTrace m tr mEnd) : (∀ x ∈ m, IsHuff x) → ∀ x ∈ mEnd, IsHuff x := by
  induction h with
  | nil => exact fun hm => hm
  | step a b hma hmb hmin1 hmin2 hrest ih =>
    intro hm
    apply ih
    intro x hx
    rcases Multiset.mem_add.mp hx with hx1 | hx2
    · exact hm x (Multiset.mem_of_mem_erase (Multiset.mem_of_mem_erase hx1))
    · rw [Multiset.mem_singleton] at hx2
      subst hx2
      exact IsHuff.node (a.freq + b.freq) (hm a hma) (hm b (Multiset.mem_of_mem_erase hmb))

theorem gt_card {m : Multiset Node} {tr : List (Node × Node × Int)} {mEnd : Multiset Node}
    (h : GreedyTrace m tr mEnd) : Multiset.card mEnd + tr.length = Multiset.card m := by
  induction h with
  | nil => simp
  | @step m mEnd rest a b hma hmb hmin1 hmin2 hrest ih =>
    have c1 : Multiset.card m = Multiset.card (m.erase a) + 1 := by
      conv_lhs => rw [← Multiset.cons_erase hma]
      rw [Multiset.card_cons]
    have c2 : Multiset.card (m.erase a) = Multiset.card ((m.erase a).erase b) + 1 := by
      conv_lhs => rw [← Multiset.cons_erase hmb]
      rw [Multiset.card_cons]
    simp only [Multiset.card_add, Multiset.card_singleton] at ih
    simp only [List.length_cons]
    omega

theorem gt_steps {m : Multiset Node} {tr : List (Node × Node × Int)} {mEnd : Multiset Node}
    (h : GreedyTrace m tr mEnd) : ∀ st ∈ tr, st.2.2 = st.1.freq + st.2.1.freq := by
  induction h with
  | nil =>
    intro st hst
    simp at hst
  | step a b hma hmb hmin1 hmin2 hrest ih =>
    intro st hst
    rcases List.mem_cons.mp hst with rfl | hst2
    · rfl
    · exact ih st hst2

theorem poolW_initLeaves (fm : List (Char × Int)) :
    poolW ((initLeaves fm : List Node) : Multiset Node) = (fm.map fun p => p.2).sum := by
  induction fm with
  | nil => rfl
  | cons p t ih =>
    show poolW ((Node.mk (some p.1) p.2 Node.null Node.null :: initLeaves t :
        List Node) : Multiset Node) = _
    rw [← Multiset.cons_coe]
    unfold poolW
    rw [Multiset.map_cons, Multiset.sum_cons]
    unfold poolW at ih
    rw [ih]
    simp [Node.freq]

theorem poolC_initLeaves (fm : List (Char × Int)) :
    poolC ((initLeaves fm : List Node) : Multiset Node) =
      ((fm.map fun p => p.1 : List Char) : Multiset Char) := by
  induction fm with
  | nil => rfl
  | cons p t ih =>
    show poolC ((Node.mk (some p.1) p.2 Node.null Node.null :: initLeaves t :
        List Node) : Multiset Node) = _
    rw [← Multiset.cons_coe]
    unfold poolC
    rw [Multiset.map_cons, Multiset.sum_cons]
    unfold poolC at ih
    rw [ih]
    show ((leafChars (Node.mk (some p.1) p.2 Node.null Node.null) : List Char) :
        Multiset Char) + ((t.map fun p => p.1 : List Char) : Multiset Char) = _
    have e : leafChars (Node.mk (some p.1) p.2 Node.null Node.null) = [p.1] := by
      simp [leafChars]
    rw [e, Multiset.coe_add]
    rfl

theorem poolW_singleton (x : Node) : poolW {x} = x.freq := by
  simp [poolW]

theorem poolC_singleton (x : Node) :
    poolC {x} = ((leafChars x : List Char) : Multiset Char) := by
  simp [poolC]

theorem initLeaves_huff (fm : List (Char × Int)) :
    ∀ x ∈ ((initLeaves fm : List Node) : Multiset Node), IsHuff x := by
  intro x hx
  rw [Multiset.mem_coe] at hx
  unfold initLeaves at hx
  rw [List.mem_map] at hx
  obtain ⟨p, _, he⟩ := hx
  rw [← he]
  exact IsHuff.leaf p.1 p.2

/-! ## The code assignment as a list of root-to-leaf paths -/

theorem dictKeys_append (m1 m2 : List (Char × List Char)) :
    dictKeys (m1 ++ m2) = dictKeys m1 ++ dictKeys m2 := by
  simp [dictKeys]

theorem insertDict_append (m : List (Char × List Char)) (k : Char) (v : List Char)
    (h : k ∉ dictKeys m) : insertDict m k v = m ++ [(k, v)] := by
  unfold insertDict
  rw [if_neg]
  intro hany
  rw [List.any_eq_true] at hany
  obtain ⟨p, hp, he⟩ := hany
  rw [beq_iff_eq] at he
  apply h
  rw [← he]
  exact List.mem_map_of_mem _ hp

theorem codesList_keys (t : Node) : ∀ pre, dictKeys (codesList t pre) = leafChars t := by
  induction t with
  | null => intro pre; rfl
  | mk c f l r ihl ihr =>
    intro pre
    show dictKeys ((match c with
      | some ch => [(ch, pre)]
      | none => []) ++ codesList l (pre ++ ['0']) ++ codesList r (pre ++ ['1'])) =
      (match c with
        | some ch => [ch]
        | none => []) ++ leafChars l ++ leafChars r
    rw [dictKeys_append, dictKeys_append, ihl, ihr]
    cases c with
    | none => rfl
    | some ch => rfl

theorem assign_codes_eq (t : Node) :
    ∀ pre m, (leafChars t).Nodup → (∀ ch ∈ leafChars t, ch ∉ dictKeys m) →
    assign_codes t pre m = m ++ codesList t pre := by
  induction t with
  | null =>
    intro pre m _ _
    simp [assign_codes, codesList]
  | mk c f l r ihl ihr =>
    intro pre m hnd hdis
    cases c with
    | none =>
      have hlc : leafChars (Node.mk none f l r) = leafChars l ++ leafChars r := by
        simp [leafChars]
      rw [hlc] at hnd hdis
      rw [List.nodup_append] at hnd
      obtain ⟨hndl, hndr, hdisj⟩ := hnd
      have e1 : assign_codes (Node.mk none f l r) pre m =
          assign_codes r (pre ++ ['1']) (assign_codes l (pre ++ ['0']) m) := rfl
      rw [e1]
      rw [ihl (pre ++ ['0']) m hndl (fun ch hch => hdis ch (List.mem_append_left _ hch))]
      rw [ihr (pre ++ ['1']) _ hndr]
      · show _ = m ++ ((match (none : Option Char) with
          | some ch => [(ch, pre)]
          | none => []) ++ codesList l (pre ++ ['0']) ++ codesList r (pre ++ ['1']))
        simp [List.append_assoc]
      · intro ch hch
        rw [dictKeys_append, List.mem_append]
        push_neg
        constructor
        · exact hdis ch (List.mem_append_right _ hch)
        · rw [codesList_keys]
          intro hchl
          exact hdisj hchl hch
    | some ch0 =>
      have hlc : leafChars (Node.mk (some ch0) f l r) =
          ch0 :: (leafChars l ++ leafChars r) := by
        simp [leafChars]
      rw [hlc] at hnd hdis
      rw [List.nodup_cons, List.nodup_append] at hnd
      obtain ⟨hch0, hndl, hndr, hdisj⟩ := hnd
      have hch0l : ch0 ∉ leafChars l := fun hx => hch0 (List.mem_append_left _ hx)
      have hch0r : ch0 ∉ leafChars r := fun hx => hch0 (List.mem_append_right _ hx)
      have e1 : assign_codes (Node.mk (some ch0) f l r) pre m =
          assign_codes r (pre ++ ['1'])
            (assign_codes l (pre ++ ['0']) (insertDict m ch0 pre)) := rfl
      rw [e1]
      rw [insertDict_append m ch0 pre (hdis ch0 (List.mem_cons_self _ _))]
      rw [ihl (pre ++ ['0']) _ hndl]
      · rw [ihr (pre ++ ['1']) _ hndr]
        · show _ = m ++ ((match (some ch0 : Option Char) with
            | some ch => [(ch, pre)]
            | none => []) ++ codesList l (pre ++ ['0']) ++ codesList r (pre ++ ['1']))
          simp [List.append_assoc]
        · intro ch hch
          rw [dictKeys_append, dictKeys_append, List.mem_append, List.mem_append]
          push_neg
          refine ⟨⟨?_, ?_⟩, ?_⟩
          · exact hdis ch (List.mem_cons_of_mem _ (List.mem_append_right _ hch))
          · show ch ∉ dictKeys [(ch0, pre)]
            simp [dictKeys]
            intro he
            subst he
            exact hch0r hch
          · rw [codesList_keys]
            intro hchl
            exact hdisj hchl hch
      · intro ch hch
        rw [dictKeys_append, List.mem_append]
        push_neg
        constructor
        · exact hdis ch (List.mem_cons_of_mem _ (List.mem_append_left _ hch))
        · show ch ∉ dictKeys [(ch0, pre)]
          simp [dictKeys]
          intro he
          subst he
          exact hch0l hch

theorem codesList_extends (t : Node) : ∀ pre c s, (c, s) ∈ codesList t pre →
    ∃ u, s = pre ++ u := by
  induction t with
  | null =>
    intro pre c s h
    simp [codesList] at h
  | mk ch f l r ihl ihr =>
    intro pre c s h
    cases ch with
    | none =>
      have h2 : (c, s) ∈ codesList l (pre ++ ['0']) ++ codesList r (pre ++ ['1']) := by
        simpa [codesList] using h
      rw [List.mem_append] at h2
      rcases h2 with hl2 | hr2
      · obtain ⟨u, hu⟩ := ihl (pre ++ ['0']) c s hl2
        exact ⟨'0' :: u, by rw [hu]; simp⟩
      · obtain ⟨u, hu⟩ := ihr (pre ++ ['1']) c s hr2
        exact ⟨'1' :: u, by rw [hu]; simp⟩
    | some ch1 =>
      have h2 : (c, s) ∈ (ch1, pre) ::
          (codesList l (pre ++ ['0']) ++ codesList r (pre ++ ['1'])) := by
        simpa [codesList] using h
      rcases List.mem_cons.mp h2 with he | h3
      · simp at he
        exact ⟨[], by rw [he.2]; simp⟩
      · rw [List.mem_append] at h3
        rcases h3 with hl2 | hr2
        · obtain ⟨u, hu⟩ := ihl (pre ++ ['0']) c s hl2
          exact ⟨'0' :: u, by rw [hu]; simp⟩
        · obtain ⟨u, hu⟩ := ihr (pre ++ ['1']) c s hr2
          exact ⟨'1' :: u, by rw [hu]; simp⟩

theorem codes_not_pre {t : Node} (hh : IsHuff t) :
    ∀ pre c1 s1 c2 s2, (c1, s1) ∈ codesList t pre → (c2, s2) ∈ codesList t pre →
    c1 ≠ c2 → ¬ ListPre s1 s2 := by
  induction hh with
  | leaf c f =>
    intro pre c1 s1 c2 s2 h1 h2 hne
    simp [codesList] at h1 h2
    exact absurd (h1.1.trans h2.1.symm) hne
  | @node l r f hl hr ihl ihr =>
    intro pre c1 s1 c2 s2 h1 h2 hne
    have e : codesList (Node.mk none f l r) pre =
        codesList l (pre ++ ['0']) ++ codesList r (pre ++ ['1']) := by
      show (match (none : Option Char) with
        | some ch => [(ch, pre)]
        | none => []) ++ codesList l (pre ++ ['0']) ++ codesList r (pre ++ ['1']) = _
      simp
    rw [e, List.mem_append] at h1 h2
    rcases h1 with h1l | h1r
    · rcases h2 with h2l | h2r
      · exact ihl (pre ++ ['0']) c1 s1 c2 s2 h1l h2l hne
      · obtain ⟨u1, hu1⟩ := codesList_extends l (pre ++ ['0']) c1 s1 h1l
        obtain ⟨u2, hu2⟩ := codesList_extends r (pre ++ ['1']) c2 s2 h2r
        intro hpre
        obtain ⟨w, hw⟩ := hpre
        rw [hu1, hu2] at hw
        simp at hw
    · rcases h2 with h2l | h2r
      · obtain ⟨u1, hu1⟩ := codesList_extends r (pre ++ ['1']) c1 s1 h1r
        obtain ⟨u2, hu2⟩ := codesList_extends l (pre ++ ['0']) c2 s2 h2l
        intro hpre
        obtain ⟨w, hw⟩ := hpre
        rw [hu1, hu2] at hw
        simp at hw
      · exact ihr (pre ++ ['1']) c1 s1 c2 s2 h1r h2r hne

theorem dictGet_mem (m : List (Char × List Char)) (k : Char) (v : List Char)
    (h : dictGet m k = some v) : (k, v) ∈ m := by
  unfold dictGet at h
  cases hf : m.find? fun p => p.1 == k with
  | none =>
    rw [hf] at h
    simp at h
  | some p =>
    rw [hf] at h
    simp at h
    have hmem := List.mem_of_find?_eq_some hf
    have hpred := List.find?_some hf
    rw [beq_iff_eq] at hpred
    have he : p = (k, v) := by
      cases p with
      | mk pa pb =>
        simp at hpred h
        rw [hpred, h]
    rw [← he]
    exact hmem

/-! ## The encoder and the modelled decoder -/

theorem encode_nil (codes : List (Char × List Char)) : encode [] codes = [] := rfl

theorem encode_cons_none (codes : List (Char × List Char)) (ch : Char) (msg : List Char)
    (h : dictGet codes ch = none) : encode (ch :: msg) codes = encode msg codes := by
  simp [encode, List.filterMap_cons, h]

theorem encode_cons_some (codes : List (Char × List Char)) (ch : Char) (msg : List Char)
    (cd : List Char) (h : dictGet codes ch = some cd) :
    encode (ch :: msg) codes = cd ++ encode msg codes := by
  simp [encode, List.filterMap_cons, h]

theorem encode_empty_codes (msg : List Char) : encode msg [] = [] := by
  induction msg with
  | nil => rfl
  | cons ch msg ih =>
    rw [encode_cons_none [] ch msg rfl]
    exact ih

theorem walk_code {t : Node} (hh : IsHuff t) :
    ∀ pre c cd, (c, cd) ∈ codesList t pre → ∀ u rest, cd = pre ++ u →
    walk t (u ++ rest) = some (c, rest) := by
  induction hh with
  | leaf c0 f =>
    intro pre c cd hmem u rest hcd
    simp [codesList] at hmem
    obtain ⟨e1, e2⟩ := hmem
    subst e1
    rw [e2] at hcd
    have hu : u = [] := by
      have h2 : pre ++ ([] : List Char) = pre ++ u := by
        simpa using hcd
      exact (List.append_cancel_left h2).symm
    subst hu
    rfl
  | @node l r f hl hr ihl ihr =>
    intro pre c cd hmem u rest hcd
    have e : codesList (Node.mk none f l r) pre =
        codesList l (pre ++ ['0']) ++ codesList r (pre ++ ['1']) := by
      show (match (none : Option Char) with
        | some ch => [(ch, pre)]
        | none => []) ++ codesList l (pre ++ ['0']) ++ codesList r (pre ++ ['1']) = _
      simp
    rw [e, List.mem_append] at hmem
    rcases hmem with hml | hmr
    · obtain ⟨v, hv⟩ := codesList_extends l (pre ++ ['0']) c cd hml
      rw [hv] at hcd
      have hu : u = '0' :: v := by
        have h2 : pre ++ ('0' :: v) = pre ++ u := by
          rw [← hcd]
          simp
        exact (List.append_cancel_left h2).symm
      subst hu
      have e2 : walk (Node.mk none f l r) (('0' :: v) ++ rest) = walk l (v ++ rest) := by
        show walk (Node.mk none f l r) ('0' :: (v ++ rest)) = _
        simp [walk]
      rw [e2]
      exact ihl (pre ++ ['0']) c cd hml v rest hv
    · obtain ⟨v, hv⟩ := codesList_extends r (pre ++ ['1']) c cd hmr
      rw [hv] at hcd
      have hu : u = '1' :: v := by
        have h2 : pre ++ ('1' :: v) = pre ++ u := by
          rw [← hcd]
          simp
        exact (List.append_cancel_left h2).symm
      subst hu
      have e2 : walk (Node.mk none f l r) (('1' :: v) ++ rest) = walk r (v ++ rest) := by
        show walk (Node.mk none f l r) ('1' :: (v ++ rest)) = _
        simp [walk]
      rw [e2]
      exact ihr (pre ++ ['1']) c cd hmr v rest hv

theorem codesList_internal_nonempty (l r : Node) (f : Int) (c : Char) (cd : List Char)
    (h : (c, cd) ∈ codesList (Node.mk none f l r) []) : cd ≠ [] := by
  have e : codesList (Node.mk none f l r) [] = codesList l ['0'] ++ codesList r ['1'] := by
    show (match (none : Option Char) with
      | some ch => [(ch, [])]
      | none => []) ++ codesList l ['0'] ++ codesList r ['1'] = _
    simp
  rw [e, List.mem_append] at h
  rcases h with h | h
  · obtain ⟨u, hu⟩ := codesList_extends l ['0'] c cd h
    rw [hu]
    simp
  · obtain ⟨u, hu⟩ := codesList_extends r ['1'] c cd h
    rw [hu]
    simp

theorem decodeLoop_encode {root : Node} (codes : List (Char × List Char))
    (hwalk : ∀ ch cd, dictGet codes ch = some cd →
      ∀ rest, walk root (cd ++ rest) = some (ch, rest))
    (hne : ∀ ch cd, dictGet codes ch = some cd → cd ≠ []) :
    ∀ msg fuel, (encode msg codes).length ≤ fuel →
    decodeLoop root fuel (encode msg codes) =
      some (msg.filter fun ch => (dictGet codes ch).isSome) := by
  intro msg
  induction msg with
  | nil =>
    intro fuel _
    cases fuel <;> rfl
  | cons ch msg ih =>
    intro fuel hf
    cases hget : dictGet codes ch with
    | none =>
      rw [encode_cons_none codes ch msg hget] at hf ⊢
      rw [ih fuel hf]
      simp [List.filter_cons, hget]
    | some cd =>
      have hcdne := hne ch cd hget
      rw [encode_cons_some codes ch msg cd hget] at hf ⊢
      obtain ⟨b, cs, hb⟩ : ∃ b cs, cd = b :: cs := by
        cases cd with
        | nil => exact absurd rfl hcdne
        | cons b cs => exact ⟨b, cs, rfl⟩
      subst hb
      have hflen : 1 ≤ fuel := by
        simp at hf
        omega
      obtain ⟨fuel2, hfe⟩ : ∃ f2, fuel = f2 + 1 := ⟨fuel - 1, by omega⟩
      subst hfe
      have hwalkstep := hwalk ch (b :: cs) hget (encode msg codes)
      rw [List.cons_append] at hwalkstep
      have e : decodeLoop root (fuel2 + 1) ((b :: cs) ++ encode msg codes) =
          match walk root (b :: (cs ++ encode msg codes)) with
          | none => none
          | some (c, rest) => (decodeLoop root fuel2 rest).map fun xs => c :: xs := rfl
      rw [e, hwalkstep]
      have e2 : (match some (ch, encode msg codes) with
          | none => none
          | some (c, rest) => Option.map (fun xs => c :: xs) (decodeLoop root fuel2 rest)) =
          Option.map (fun xs => ch :: xs) (decodeLoop root fuel2 (encode msg codes)) := rfl
      rw [e2]
      rw [ih fuel2 (by simp at hf; omega)]
      simp [List.filter_cons, hget]

/-! ## Facts about the built root shared by several claims -/

theorem build_root_facts (fm : List (Char × Int)) (hfm : fm ≠ []) :
    GreedyTrace ((initLeaves fm : List Node) : Multiset Node) (build_huffman_tree fm).2
      {(build_huffman_tree fm).1} ∧
    IsHuff (build_huffman_tree fm).1 ∧
    ((leafChars (build_huffman_tree fm).1 : List Char) : Multiset Char) =
      ((fm.map fun p => p.1 : List Char) : Multiset Char) ∧
    (build_huffman_tree fm).1.freq = (fm.map fun p => p.2).sum ∧
    (build_huffman_tree fm).2.length + 1 = fm.length := by
  obtain ⟨M, hgt, hcard, hemp, hne⟩ := build_core fm
  have hM := hne hfm
  subst hM
  refine ⟨hgt, ?_, ?_, ?_, ?_⟩
  · exact gt_huff hgt (initLeaves_huff fm) _ (Multiset.mem_singleton_self _)
  · have hc := gt_chars hgt
    rw [poolC_singleton, poolC_initLeaves] at hc
    exact hc
  · have hw := gt_weight hgt
    rw [poolW_singleton, poolW_initLeaves] at hw
    exact hw
  · have hcd := gt_card hgt
    rw [Multiset.card_singleton] at hcd
    have hlv : Multiset.card ((initLeaves fm : List Node) : Multiset Node) = fm.length := by
      rw [Multiset.coe_card]
      simp [initLeaves]
    omega

theorem IsHuff.internal_of_two {t : Node} (hh : IsHuff t) (h2 : 2 ≤ (leafChars t).length) :
    ∃ f l r, t = Node.mk none f l r ∧ IsHuff l ∧ IsHuff r := by
  cases hh with
  | leaf c f => simp [leafChars] at h2
  | @node l r f hl hr => exact ⟨f, l, r, rfl, hl, hr⟩

theorem build_leafChars_perm (fm : List (Char × Int)) (hfm : fm ≠ []) :
    (leafChars (build_huffman_tree fm).1).Perm (fm.map fun p => p.1) := by
  obtain ⟨_, _, hchars, _, _⟩ := build_root_facts fm hfm
  exact Multiset.coe_eq_coe.mp hchars

/-! ## Claim theorems -/

/-- C1: evaluation of the pipeline on the single-symbol table mapping a to
count 5. The code returns that single leaf with an empty merge trace, and
assign_codes maps the symbol to the empty code, not to the one-bit code 0
that the specification requires for the degenerate tree. -/
theorem C1_single_symbol_eval :
    build_huffman_tree [('a', 5)] = (Node.mk (some 'a') 5 Node.null Node.null, []) ∧
    assign_codes (build_huffman_tree [('a', 5)]).1 [] [] = [('a', [])] := by
  decide

/-- C2 counterexample: on the table mapping a to count 0, build_huffman_tree
raises no error and returns a tree whose leaf carries the zero-count symbol,
so the claimed InvalidFrequency rejection does not happen in the code. -/
theorem C2_counterexample :
    build_huffman_tree [('a', 0)] = (Node.mk (some 'a') 0 Node.null Node.null, []) ∧
    'a' ∈ leafChars (build_huffman_tree [('a', 0)]).1 := by
  decide

/-- C2 amended: build_huffman_tree performs no validation at its boundary;
every entry of the frequency table, also one whose count is at most 0,
becomes a leaf of the returned tree. -/
theorem C2_no_validation (fm : List (Char × Int)) (c : Char) (n : Int)
    (hmem : (c, n) ∈ fm) (_hn : n ≤ 0) :
    c ∈ leafChars (build_huffman_tree fm).1 := by
  have hfm : fm ≠ [] := by
    intro e
    subst e
    simp at hmem
  obtain ⟨_, _, hchars, _, _⟩ := build_root_facts fm hfm
  have hc : c ∈ ((fm.map fun p => p.1 : List Char) : Multiset Char) := by
    rw [Multiset.mem_coe, List.mem_map]
    exact ⟨(c, n), hmem, rfl⟩
  rw [← hchars, Multiset.mem_coe] at hc
  exact hc

theorem C2_no_validation_witness :
    'a' ∈ leafChars (build_huffman_tree [('a', 0), ('b', 2)]).1 :=
  C2_no_validation [('a', 0), ('b', 2)] 'a' 0 (by decide) (by decide)

/-- C3: for every frequency table with at least two distinct positive-count
symbols, the code table that assign_codes produces on the tree built by
build_huffman_tree has no code that starts the code of another symbol. -/
theorem C3_prefix_free (fm : List (Char × Int))
    (hnd : (fm.map fun p => p.1).Nodup) (h2 : 2 ≤ fm.length)
    (hpos : ∀ p ∈ fm, 0 < p.2) :
    ∀ c1 s1 c2 s2,
      (c1, s1) ∈ assign_codes (build_huffman_tree fm).1 [] [] →
      (c2, s2) ∈ assign_codes (build_huffman_tree fm).1 [] [] →
      c1 ≠ c2 → ¬ ListPre s1 s2 := by
  have hfm : fm ≠ [] := by
    intro e
    subst e
    simp at h2
  obtain ⟨_, hhuff, hchars, _, _⟩ := build_root_facts fm hfm
  have hperm : (leafChars (build_huffman_tree fm).1).Perm (fm.map fun p => p.1) :=
    Multiset.coe_eq_coe.mp hchars
  have hndl : (leafChars (build_huffman_tree fm).1).Nodup := hperm.nodup_iff.mpr hnd
  have heq : assign_codes (build_huffman_tree fm).1 [] [] =
      codesList (build_huffman_tree fm).1 [] := by
    have e := assign_codes_eq (build_huffman_tree fm).1 [] [] hndl
      (by intro ch _; simp [dictKeys])
    simpa using e
  rw [heq]
  intro c1 s1 c2 s2 hm1 hm2 hne
  exact codes_not_pre hhuff [] c1 s1 c2 s2 hm1 hm2 hne

theorem C3_prefix_free_witness : ¬ ListPre ['0'] ['1'] :=
  C3_prefix_free [('a', 1), ('b', 2)] (by decide) (by decide) (by decide)
    'a' ['0'] 'b' ['1'] (by decide) (by decide) (by decide)

/-- C4: every recorded merge step carries a merged weight equal to the sum
of the weights of its two children, and for a nonempty table the weight of
the returned root equals the sum of all table counts. -/
theorem C4_weight_conservation (fm : List (Char × Int)) :
    (∀ st ∈ (build_huffman_tree fm).2, st.2.2 = st.1.freq + st.2.1.freq) ∧
    (fm ≠ [] → (build_huffman_tree fm).1.freq = (fm.map fun p => p.2).sum) := by
  constructor
  · obtain ⟨M, hgt, _, _, _⟩ := build_core fm
    exact gt_steps hgt
  · intro hfm
    obtain ⟨_, _, _, hw, _⟩ := build_root_facts fm hfm
    exact hw

theorem C4_weight_conservation_witness :
    ((Node.mk (some 'a') 1 Node.null Node.null, Node.mk (some 'b') 2 Node.null Node.null,
        (3 : Int)) : Node × Node × Int).2.2 =
      (Node.mk (some 'a') 1 Node.null Node.null, Node.mk (some 'b') 2 Node.null Node.null,
        (3 : Int)).1.freq +
      (Node.mk (some 'a') 1 Node.null Node.null, Node.mk (some 'b') 2 Node.null Node.null,
        (3 : Int)).2.1.freq ∧
    (build_huffman_tree [('a', 1), ('b', 2)]).1.freq =
      ([('a', (1 : Int)), ('b', 2)].map fun p => p.2).sum :=
  ⟨(C4_weight_conservation [('a', 1), ('b', 2)]).1 _ (by decide),
   (C4_weight_conservation [('a', 1), ('b', 2)]).2 (by decide)⟩

/-- C5: build_huffman_tree follows the greedy merge algorithm exactly:
starting from the pool of one leaf per symbol, every step removes a node a
of minimal weight and then a node b of minimal weight among the rest,
pushes the internal node with left child a, right child b and weight equal
to the sum of their weights, and records the triple of a, b and that
weight; the loop ends with exactly the returned root in the pool, or with
an empty pool for the empty table. -/
theorem C5_greedy (fm : List (Char × Int)) :
    ∃ M : Multiset Node,
      GreedyTrace ((initLeaves fm : List Node) : Multiset Node)
        (build_huffman_tree fm).2 M ∧
      Multiset.card M ≤ 1 ∧
      (fm = [] → M = 0) ∧
      (fm ≠ [] → M = {(build_huffman_tree fm).1}) := by
  obtain ⟨M, hgt, hcard, hemp, hne⟩ := build_core fm
  exact ⟨M, hgt, hcard, fun h => (hemp h).1, hne⟩

theorem C5_greedy_witness :
    GreedyTrace ((initLeaves [('a', 1), ('b', 2)] : List Node) : Multiset Node)
      (build_huffman_tree [('a', 1), ('b', 2)]).2
      {(build_huffman_tree [('a', 1), ('b', 2)]).1} := by
  obtain ⟨M, hgt, _, _, hne⟩ := C5_greedy [('a', 1), ('b', 2)]
  rw [hne (by decide)] at hgt
  exact hgt

/-- C6 counterexample: with the single-symbol table mapping a to 1, the code
of a is empty, the encoding of the message aa is the empty bit string, and
decoding returns the empty message instead of the two symbols, although
every symbol of the message is present in the code table. -/
theorem C6_counterexample :
    encode ['a', 'a'] (assign_codes (build_huffman_tree [('a', 1)]).1 [] []) = [] ∧
    decode (build_huffman_tree [('a', 1)]).1
      (encode ['a', 'a'] (assign_codes (build_huffman_tree [('a', 1)]).1 [] [])) =
      some [] ∧
    (['a', 'a'].filter fun ch =>
      (dictGet (assign_codes (build_huffman_tree [('a', 1)]).1 [] []) ch).isSome) =
      ['a', 'a'] ∧
    ¬ (some ([] : List Char) = some ['a', 'a']) := by
  decide

/-- C6 amended: for every table with at least two distinct symbols, decoding
the encoded message with the prefix tree reconstructs exactly the
subsequence of message symbols present in the code table, hence the whole
message when every symbol is in the table. The decoder is modelled from the
specification because the repository ships none. -/
theorem C6_round_trip (fm : List (Char × Int))
    (hnd : (fm.map fun p => p.1).Nodup) (h2 : 2 ≤ fm.length) (msg : List Char) :
    decode (build_huffman_tree fm).1
      (encode msg (assign_codes (build_huffman_tree fm).1 [] [])) =
      some (msg.filter fun ch =>
        (dictGet (assign_codes (build_huffman_tree fm).1 [] []) ch).isSome) := by
  have hfm : fm ≠ [] := by
    intro e
    subst e
    simp at h2
  obtain ⟨_, hhuff, hchars, _, _⟩ := build_root_facts fm hfm
  have hperm : (leafChars (build_huffman_tree fm).1).Perm (fm.map fun p => p.1) :=
    Multiset.coe_eq_coe.mp hchars
  have hndl : (leafChars (build_huffman_tree fm).1).Nodup := hperm.nodup_iff.mpr hnd
  have heq : assign_codes (build_huffman_tree fm).1 [] [] =
      codesList (build_huffman_tree fm).1 [] := by
    have e := assign_codes_eq (build_huffman_tree fm).1 [] [] hndl
      (by intro ch _; simp [dictKeys])
    simpa using e
  have hlen2 : 2 ≤ (leafChars (build_huffman_tree fm).1).length := by
    rw [hperm.length_eq]
    simpa using h2
  obtain ⟨f, l, r, hroot, _, _⟩ := hhuff.internal_of_two hlen2
  rw [heq]
  unfold decode
  apply decodeLoop_encode
  · intro ch cd hget rest
    have hmem := dictGet_mem _ _ _ hget
    exact walk_code hhuff [] ch cd hmem cd rest rfl
  · intro ch cd hget
    have hmem := dictGet_mem _ _ _ hget
    rw [hroot] at hmem
    exact codesList_internal_nonempty l r f ch cd hmem
  · exact le_refl _

theorem C6_round_trip_witness :
    decode (build_huffman_tree [('a', 1), ('b', 2)]).1
      (encode ['a', 'b', 'a', 'q']
        (assign_codes (build_huffman_tree [('a', 1), ('b', 2)]).1 [] [])) =
      some (['a', 'b', 'a', 'q'].filter fun ch =>
        (dictGet (assign_codes (build_huffman_tree [('a', 1), ('b', 2)]).1 [] [])
          ch).isSome) :=
  C6_round_trip [('a', 1), ('b', 2)] (by decide) (by decide) ['a', 'b', 'a', 'q']

/-- C7: the empty frequency table produces an absent root and an empty merge
trace, assign_codes on the absent root yields the empty code table, and
encoding any message with the empty code table yields the empty bit string;
every function involved is total, so no exception arises. -/
theorem C7_empty_table :
    build_huffman_tree [] = (Node.null, []) ∧
    assign_codes Node.null [] [] = [] ∧
    ∀ msg : List Char, encode msg [] = [] :=
  ⟨rfl, rfl, encode_empty_codes⟩

/-- C8: the encoder never fails and silently skips unknown symbols: the
empty message encodes to the empty bit string, a message symbol absent from
the code table contributes nothing, and a present symbol contributes
exactly its code, in message order. -/
theorem C8_encoder_skips (codes : List (Char × List Char)) :
    encode [] codes = [] ∧
    (∀ ch msg, dictGet codes ch = none → encode (ch :: msg) codes = encode msg codes) ∧
    (∀ ch msg cd, dictGet codes ch = some cd →
      encode (ch :: msg) codes = cd ++ encode msg codes) :=
  ⟨rfl, fun ch msg h => encode_cons_none codes ch msg h,
    fun ch msg cd h => encode_cons_some codes ch msg cd h⟩

theorem C8_encoder_skips_witness :
    encode ['b', 'a'] [('a', ['0'])] = encode ['a'] [('a', ['0'])] ∧
    encode ['a'] [('a', ['0'])] = ['0'] ++ encode [] [('a', ['0'])] :=
  ⟨(C8_encoder_skips [('a', ['0'])]).2.1 'b' ['a'] (by decide),
   (C8_encoder_skips [('a', ['0'])]).2.2 'a' [] ['0'] (by decide)⟩

/-- C9: evaluation of the compression metric at the failing input: for the
message aaaa with the table mapping a to 4 the code of a is empty, so the
encoded bit string has length 0 and the computed ratio is 100, not the
compressed size 4 and ratio 87.5 that the claim states; the ratio formula
itself matches the code, while the degenerate empty code does not. -/
theorem C9_ratio_eval :
    original_bits ['a', 'a', 'a', 'a'] = 32 ∧
    (encode ['a', 'a', 'a', 'a']
      (assign_codes (build_huffman_tree [('a', 4)]).1 [] [])).length = 0 ∧
    compression_ratio_pct 32 0 = 100 ∧
    compression_ratio_pct 32 4 = 175 / 2 ∧
    (100 : ℚ) ≠ 175 / 2 := by
  refine ⟨rfl, by decide, ?_, ?_, by norm_num⟩
  · unfold compression_ratio_pct
    norm_num
  · unfold compression_ratio_pct
    norm_num

/-- C10: for a table of n distinct symbols with n at least 1, the merge
trace has exactly n minus 1 steps, the leaves of the returned tree are
exactly the table symbols up to order, and the key list of the produced
code table is a permutation of the table symbols. -/
theorem C10_counts (fm : List (Char × Int))
    (hnd : (fm.map fun p => p.1).Nodup) (h1 : 1 ≤ fm.length) :
    (build_huffman_tree fm).2.length + 1 = fm.length ∧
    (leafChars (build_huffman_tree fm).1).Perm (fm.map fun p => p.1) ∧
    (dictKeys (assign_codes (build_huffman_tree fm).1 [] [])).Perm
      (fm.map fun p => p.1) := by
  have hfm : fm ≠ [] := by
    intro e
    subst e
    simp at h1
  obtain ⟨_, hhuff, hchars, _, hsteps⟩ := build_root_facts fm hfm
  have hperm : (leafChars (build_huffman_tree fm).1).Perm (fm.map fun p => p.1) :=
    Multiset.coe_eq_coe.mp hchars
  have hndl : (leafChars (build_huffman_tree fm).1).Nodup := hperm.nodup_iff.mpr hnd
  refine ⟨hsteps, hperm, ?_⟩
  have heq : assign_codes (build_huffman_tree fm).1 [] [] =
      codesList (build_huffman_tree fm).1 [] := by
    have e := assign_codes_eq (build_huffman_tree fm).1 [] [] hndl
      (by intro ch _; simp [dictKeys])
    simpa using e
  rw [heq, codesList_keys]
  exact hperm

theorem C10_counts_witness :
    (build_huffman_tree [('a', 1), ('b', 2)]).2.length + 1 =
      [('a', (1 : Int)), ('b', 2)].length ∧
    (leafChars (build_huffman_tree [('a', 1), ('b', 2)]).1).Perm
      ([('a', (1 : Int)), ('b', 2)].map fun p => p.1) ∧
    (dictKeys (assign_codes (build_huffman_tree [('a', 1), ('b', 2)]).1 [] [])).Perm
      ([('a', (1 : Int)), ('b', 2)].map fun p => p.1) :=
  C10_counts [('a', 1), ('b', 2)] (by decide) (by decide)
